import Mathlib

/-!
Verification development for the cflow-to-dot converter
(`pycflow2dot/pycflow2dot.py`).

The definitions below are a shallow embedding of the Python source:

  * `get_src_line`       embeds lines 149-153 of `cflow2nx`
    (the `re.findall(':.*>', line)` extraction followed by `int(...)`),
  * `normalizeLine`      embeds the per-line trimming and splitting,
    lines 155-160 (`re.sub(r'\(.*$', ...)`, `re.sub(r'^\x7b\s*', ...)`,
    `re.sub(r'\x7d\s*', ...)`, `re.split(r'\t', ...)`, `int(...)`),
  * `rename_if_reserved_by_dot`, `_DOT_RESERVED` embed lines 35 and 193-198,
  * `step` / `processTriples` / `processLines` / `cflow2nx` embed the
    stack-and-graph loop of `cflow2nx`, lines 136-190,
  * `choose_node_format`, `_COLORS`, `_escape_underscores` embed
    lines 34 and 234-273,
  * `node_defined_in_other_src` embeds lines 302-310.

Machine integers are modelled as `Int` (Python integers are unbounded).
Python exceptions are modelled with `Except`: `ParseErr.badInt` is the
`ValueError` raised by `int(...)`, `ParseErr.malformedLine` the
`ValueError` raised by unpacking `re.split` into two variables, and
`ParseErr.missingAncestor` the `KeyError` raised by
`stack[nest_level - 1]` (the spec calls it `MissingAncestorError`).
Because the Python mutations to the local graph `g` precede the raise
of the `KeyError`, the `missingAncestor` constructor records the graph
exactly as it stands at the moment the exception is raised.
-/

deriving instance DecidableEq for Except

/-- One parsed input line: the spec's `CallLine` record
(nestLevel, functionName, sourceLine). -/
structure CallLine where
  nest : Int
  name : String
  src : Int
deriving DecidableEq, Repr

/-- The spec's `CallGraph`, embedding `networkx.DiGraph` as used by the
source: nodes in insertion order with their `nest_level` and `src_line`
attributes, edges in insertion order. -/
structure Graph where
  nodes : List (String × Int × Int)
  edges : List (String × String)
deriving DecidableEq, Repr

/-- Python errors raised while parsing one file. -/
inductive ParseErr where
  | malformedLine (line : List Char)
  | badInt (s : List Char)
  | missingAncestor (g : Graph) (missing : Int)
deriving DecidableEq, Repr

/-- Parser state of `cflow2nx`: the graph `g` and the depth-indexed
dict `stack`.  The dict is modelled as a cons-list in which the first
binding of a key is the current one (each Python assignment
`stack[nest_level] = cur_node` conses a fresh binding). -/
structure PState where
  g : Graph
  stack : List (Int × String)
deriving DecidableEq, Repr

def initState : PState := ⟨⟨[], []⟩, []⟩

/-- Lookup in the depth-indexed dict: first binding wins. -/
def stackFind : List (Int × String) → Int → Option String
  | [], _ => none
  | (k, v) :: rest, q => if k = q then some v else stackFind rest q

/-! Character helpers used by the regex embeddings. -/

def braceOpenChar : Char := Char.ofNat 123

def braceCloseChar : Char := Char.ofNat 125

/-- ASCII whitespace, the characters Python's `\s` and `int()` strip on
the inputs at hand. -/
def isPyWs (c : Char) : Bool :=
  (c == ' ') || (c == '\t') || (c == '\n') || (c == '\r') ||
    (c == Char.ofNat 11) || (c == Char.ofNat 12)

def charIsDigit (c : Char) : Bool := decide ('0' ≤ c) && decide (c ≤ '9')

/-- Decimal value of a digit string. -/
def digitsVal (ds : List Char) : Int :=
  ds.foldl (fun a c => 10 * a + Int.ofNat (c.toNat - 48)) 0

def allDigits (ds : List Char) : Bool := ds.all charIsDigit

def stripWsLC (l : List Char) : List Char :=
  ((l.dropWhile isPyWs).reverse.dropWhile isPyWs).reverse

/-- Python's `int(s)` on a decimal string: strip whitespace, optional
sign, then a nonempty run of digits; `none` models the `ValueError`. -/
def pyInt? (l : List Char) : Option Int :=
  match stripWsLC l with
  | [] => none
  | c :: ds =>
    if c = '-' then
      if ds ≠ [] ∧ allDigits ds = true then some (-(digitsVal ds)) else none
    else if c = '+' then
      if ds ≠ [] ∧ allDigits ds = true then some (digitsVal ds) else none
    else
      if allDigits (c :: ds) = true then some (digitsVal (c :: ds)) else none

/-! Embedding of `re.findall(':.*>', line)` (line 149).  The regex is
greedy: the single possible match starts at the first `:` that has some
later `>`, and extends to the last `>` of the whole line.  The code then
strips the surrounding `:` and `>` (`src_line_no[0][1:-1]`). -/

/-- Characters of `l` strictly before the last `>` of `l`. -/
def takeToLastGt (l : List Char) : List Char :=
  (((l.reverse).dropWhile (fun c => c != '>')).drop 1).reverse

/-- Content between the first `:`-with-a-later-`>` and the last `>`. -/
def findColonGtContent : List Char → Option (List Char)
  | [] => none
  | c :: rest =>
    if c = ':' ∧ '>' ∈ rest then some (takeToLastGt rest)
    else findColonGtContent rest

/-- Lines 149-153 of the source: the extracted source-line number,
`-1` when the pattern does not occur, `ValueError` when the matched
text is not an integer. -/
def get_src_line (line : List Char) : Except ParseErr Int :=
  match findColonGtContent line with
  | none => Except.ok (-1)
  | some content =>
    match pyInt? content with
    | some k => Except.ok k
    | none => Except.error (ParseErr.badInt content)

/-! Embedding of the per-line trimming, lines 155-159. -/

/-- `re.sub(r'\(.*$', '', line)`: drop everything from the first `(`. -/
def trimParen (l : List Char) : List Char := l.takeWhile (fun c => c != '(')

/-- Embeds `re.sub` of an anchored opening brace plus whitespace with
the empty string: strip one leading brace and the whitespace after it. -/
def stripLeadBrace (l : List Char) : List Char :=
  match l with
  | [] => []
  | c :: rest => if c = braceOpenChar then rest.dropWhile isPyWs else l

/-- Embeds `re.sub` replacing every closing brace plus following
whitespace with a single tab.  The boolean records whether we are
inside the whitespace run that follows a replaced brace. -/
def braceToTabAux : Bool → List Char → List Char
  | _, [] => []
  | skipping, c :: rest =>
    if skipping && isPyWs c then braceToTabAux true rest
    else if c = braceCloseChar then '\t' :: braceToTabAux true rest
    else c :: braceToTabAux false rest

def braceToTab (l : List Char) : List Char := braceToTabAux false l

/-- Split on a separator character, like `re.split` on a single char. -/
def splitOnChar (sep : Char) (l : List Char) : List (List Char) :=
  l.foldr
    (fun c acc =>
      if c = sep then [] :: acc
      else
        match acc with
        | [] => [[c]]
        | h :: t => (c :: h) :: t)
    [[]]

/-- The spec's Text Normalizer: one raw line to a `CallLine`
(lines 148-160 of the source). -/
def normalizeLine (line : List Char) : Except ParseErr CallLine :=
  match get_src_line line with
  | Except.error e => Except.error e
  | Except.ok src_line_no =>
    let s := braceToTab (stripLeadBrace (trimParen line))
    match splitOnChar '\t' s with
    | [nl, fn] =>
      match pyInt? nl with
      | some nest_level => Except.ok ⟨nest_level, String.mk fn, src_line_no⟩
      | none => Except.error (ParseErr.badInt nl)
    | _ => Except.error (ParseErr.malformedLine line)

/-! Reserved-word renaming, lines 35 and 193-198. -/

def _DOT_RESERVED : List String :=
  ["graph", "strict", "digraph", "subgraph", "node", "edge"]

/-- ASCII lowering, `str.lower()` on the identifiers at hand. -/
def lowerChar (c : Char) : Char :=
  if 'A' ≤ c ∧ c ≤ 'Z' then Char.ofNat (c.toNat + 32) else c

def strLower (s : String) : String := String.mk (s.data.map lowerChar)

def rename_if_reserved_by_dot (word : String) : String :=
  if strLower word ∈ _DOT_RESERVED then word ++ "_" else word

/-! Graph operations (networkx `DiGraph` as used by the source). -/

def Graph.hasNode (g : Graph) (x : String) : Bool :=
  g.nodes.any (fun p => p.1 == x)

def Graph.addNode (g : Graph) (x : String) (nl sl : Int) : Graph :=
  ⟨g.nodes ++ [(x, nl, sl)], g.edges⟩

def Graph.hasEdge (g : Graph) (a b : String) : Bool := g.edges.contains (a, b)

def Graph.addEdge (g : Graph) (a b : String) : Graph :=
  ⟨g.nodes, g.edges ++ [(a, b)]⟩

/-- Lines 170-173: `if cur_node not in g: g.add_node(...)`. -/
def ensureNode (g : Graph) (cur : String) (nl sl : Int) : Graph :=
  if g.hasNode cur then g else g.addNode cur nl sl

/-- One iteration of the `cflow2nx` loop body after normalization,
lines 161-189.  `stack[nest_level] = cur_node` runs first, then the
node insertion, then (for non-roots) the `stack[nest_level - 1]`
lookup, whose `KeyError` carries the graph as already mutated.
`networkx.add_edge` would insert missing endpoints, but both endpoints
are always present here: `cur` was just ensured, and every stack value
was ensured when its own line was processed. -/
def step (st : PState) (t : CallLine) : Except ParseErr PState :=
  let cur := rename_if_reserved_by_dot t.name
  let stack1 := (t.nest, cur) :: st.stack
  let g1 := ensureNode st.g cur t.nest t.src
  if t.nest ≠ 0 then
    match stackFind stack1 (t.nest - 1) with
    | none => Except.error (ParseErr.missingAncestor g1 (t.nest - 1))
    | some pred_node =>
      if g1.hasEdge pred_node cur then Except.ok ⟨g1, stack1⟩
      else Except.ok ⟨g1.addEdge pred_node cur, stack1⟩
  else Except.ok ⟨g1, stack1⟩

/-- The spec's Call-Tree Parser on the sequence of `CallLine` records. -/
def processTriples : List CallLine → PState → Except ParseErr PState
  | [], st => Except.ok st
  | t :: ts, st =>
    match step st t with
    | Except.error e => Except.error e
    | Except.ok st' => processTriples ts st'

/-- The `cflow2nx` loop over raw lines: empty lines are skipped
(`if not line: continue`), others are normalized and fed to `step`. -/
def processLines : List (List Char) → PState → Except ParseErr PState
  | [], st => Except.ok st
  | l :: rest, st =>
    if l = [] then processLines rest st
    else
      match normalizeLine l with
      | Except.error e => Except.error e
      | Except.ok t =>
        match step st t with
        | Except.error e => Except.error e
        | Except.ok st' => processLines rest st'

def parseLines (lines : List (List Char)) : Except ParseErr Graph :=
  match processLines lines initState with
  | Except.ok st => Except.ok st.g
  | Except.error e => Except.error e

/-- `cflow2nx(cflow_str, c_fname)`, lines 136-190: strip `\r`, split on
newlines, run the loop.  (The `c_fname` parameter is unused by the
source function.) -/
def cflow2nx (cflow_str : String) : Except ParseErr Graph :=
  parseLines (splitOnChar '\n' (cflow_str.data.filter (fun c => c != '\r')))

/-! Node formatting, lines 34 and 234-273. -/

def _COLORS : List String :=
  ["#eecc80", "#ccee80", "#80ccee", "#eecc80", "#80eecc"]

def shapesList : List String := ["box", "ellipse", "octagon", "hexagon", "diamond"]

/-- Lines 269-273: replace each underscore by two backslashes and an
underscore when LaTeX output is requested (the replacement text
`\\\\_` in the source denotes two literal backslashes). -/
def _escape_underscores (s : String) (for_latex : Bool) : String :=
  if for_latex then
    String.mk
      (s.data.foldr
        (fun c acc => if c = '_' then '\\' :: '\\' :: '_' :: acc else c :: acc)
        [])
  else s

/-- Lines 234-266 (`choose_node_format`): returns (label, color, shape).
The string `sl` of the source is two literal backslashes.  The shape
table `shapes` of line 236 is hoisted to `shapesList`.  Negative
indices cannot arise: Python `%` and `Int.emod` agree on a positive
modulus, and both index expressions lie in `[0, 5)`. -/
def choose_node_format (node : String) (nest_level src_line : Int)
    (defined_somewhere for_latex multi_page : Bool) : String × String × String :=
  let sl : String := "\\\\"
  let color :=
    if nest_level = 0 then _COLORS.getD 0 ""
    else _COLORS.getD ((nest_level - 1) % 5).toNat ""
  let shape :=
    if nest_level = 0 then "box"
    else shapesList.getD (nest_level % 5).toNat ""
  let label0 := _escape_underscores node for_latex
  let label1 :=
    if src_line ≠ -1 then
      if for_latex then label0 ++ "\\n" ++ toString src_line
      else label0 ++ "\\n" ++ toString src_line
    else label0
  let label2 :=
    if multi_page then
      if src_line ≠ -1 then
        sl ++ "descitem\x7b" ++ node ++ "\x7d\\n" ++ label1
      else
        if defined_somewhere then
          sl ++ "descref[" ++ label1 ++ "]\x7b" ++ node ++ "\x7d"
        else label1
    else label1
  (label2, color, shape)

/-! Cross-graph resolver, lines 302-310. -/

/-- Attributes of a named node: `graph.nodes[node]` lookup. -/
def findNodeAttrs (g : Graph) (x : String) : Option (Int × Int) :=
  (g.nodes.find? (fun p => p.1 == x)).map (fun p => p.2)

/-- Lines 302-310 (`node_defined_in_other_src`): scan the sibling
graphs, flipping the flag to true when the node occurs with a
`src_line` attribute other than `-1`; the flag is never reset. -/
def node_defined_in_other_src (node : String) (other_graphs : List Graph) : Bool :=
  other_graphs.foldl
    (fun defined_somewhere graph =>
      match findNodeAttrs graph node with
      | some a => if a.2 ≠ -1 then true else defined_somewhere
      | none => defined_somewhere)
    false

/-- Follows the spec's words, for comparison with `get_src_line`:
the sourceLine is the digits of a marker `:edigits-then-greater-than`
occurring anywhere in the line, none when no marker is present. -/
def specMarkerSrcLine : List Char → Option Int
  | [] => none
  | c :: rest =>
    if c = ':' ∧ (rest.takeWhile charIsDigit) ≠ [] ∧
        (rest.dropWhile charIsDigit).head? = some '>' then
      some (digitsVal (rest.takeWhile charIsDigit))
    else specMarkerSrcLine rest

/-! Basic lemmas about the line loop. -/

theorem normalizeLine_nil : normalizeLine [] = Except.error (ParseErr.malformedLine []) := rfl

theorem processLines_cons_ok {l : List Char} {rest : List (List Char)}
    {st : PState} {t : CallLine} {st' : PState}
    (hn : normalizeLine l = Except.ok t) (hs : step st t = Except.ok st') :
    processLines (l :: rest) st = processLines rest st' := by
  have hne : l ≠ [] := by
    intro h
    rw [h, normalizeLine_nil] at hn
    exact Except.noConfusion hn
  simp only [processLines, if_neg hne, hn, hs]

/-- C1: the four-line input that parses to the triples
(0, main, 10), (1, foo, 20), (1, bar, -1), (2, foo, 20) produces the
graph with exactly the nodes main, foo, bar and exactly the edges
main-to-foo, main-to-bar, bar-to-foo. -/
theorem c1_example_graph (l1 l2 l3 l4 : List Char)
    (h1 : normalizeLine l1 = Except.ok ⟨0, "main", 10⟩)
    (h2 : normalizeLine l2 = Except.ok ⟨1, "foo", 20⟩)
    (h3 : normalizeLine l3 = Except.ok ⟨1, "bar", -1⟩)
    (h4 : normalizeLine l4 = Except.ok ⟨2, "foo", 20⟩) :
    parseLines [l1, l2, l3, l4] =
      Except.ok ⟨[("main", 0, 10), ("foo", 1, 20), ("bar", 1, -1)],
        [("main", "foo"), ("main", "bar"), ("bar", "foo")]⟩ := by
  have s1 : step initState ⟨0, "main", 10⟩ =
      Except.ok ⟨⟨[("main", 0, 10)], []⟩, [(0, "main")]⟩ := by decide
  have s2 : step ⟨⟨[("main", 0, 10)], []⟩, [(0, "main")]⟩ ⟨1, "foo", 20⟩ =
      Except.ok ⟨⟨[("main", 0, 10), ("foo", 1, 20)], [("main", "foo")]⟩,
        [(1, "foo"), (0, "main")]⟩ := by decide
  have s3 : step ⟨⟨[("main", 0, 10), ("foo", 1, 20)], [("main", "foo")]⟩,
        [(1, "foo"), (0, "main")]⟩ ⟨1, "bar", -1⟩ =
      Except.ok ⟨⟨[("main", 0, 10), ("foo", 1, 20), ("bar", 1, -1)],
          [("main", "foo"), ("main", "bar")]⟩,
        [(1, "bar"), (1, "foo"), (0, "main")]⟩ := by decide
  have s4 : step ⟨⟨[("main", 0, 10), ("foo", 1, 20), ("bar", 1, -1)],
          [("main", "foo"), ("main", "bar")]⟩,
        [(1, "bar"), (1, "foo"), (0, "main")]⟩ ⟨2, "foo", 20⟩ =
      Except.ok ⟨⟨[("main", 0, 10), ("foo", 1, 20), ("bar", 1, -1)],
          [("main", "foo"), ("main", "bar"), ("bar", "foo")]⟩,
        [(2, "foo"), (1, "bar"), (1, "foo"), (0, "main")]⟩ := by decide
  unfold parseLines
  rw [processLines_cons_ok h1 s1, processLines_cons_ok h2 s2,
    processLines_cons_ok h3 s3, processLines_cons_ok h4 s4]
  rfl

theorem c1_example_graph_witness :
    parseLines [("\x7b   0\x7d main() <int main () at f.c:10>:").data,
        ("\x7b   1\x7d foo() <int foo () at f.c:20>:").data,
        ("\x7b   1\x7d bar()").data,
        ("\x7b   2\x7d foo() <int foo () at f.c:20>:").data] =
      Except.ok ⟨[("main", 0, 10), ("foo", 1, 20), ("bar", 1, -1)],
        [("main", "foo"), ("main", "bar"), ("bar", "foo")]⟩ :=
  c1_example_graph _ _ _ _ (by decide) (by decide) (by decide) (by decide)

/-- C2, counterexample to the claim as stated: on the input that jumps
from depth 0 to depth 2, the parse does fail with the missing-ancestor
error, but the graph recorded at the moment the error is raised already
holds the node of the offending line (`baz`); the error is therefore
not raised before that node is added. -/
theorem c2_counterexample :
    processTriples [⟨0, "main", 10⟩, ⟨2, "baz", -1⟩] initState =
      Except.error (ParseErr.missingAncestor
        ⟨[("main", 0, 10), ("baz", 2, -1)], []⟩ 1)
    ∧ Graph.hasNode ⟨[("main", 0, 10), ("baz", 2, -1)], []⟩ ("baz") = true := by
  decide

/-- C5, counterexample to the claim as stated: the line `:1> x>` holds
the marker `:1>` (colon, digits, greater-than), so the claim demands
the extracted sourceLine 1; but the greedy pattern of the source
matches up to the last greater-than and `int('1> x')` raises a
ValueError instead. -/
theorem c5_counterexample :
    get_src_line ((":1> x>").data) =
      Except.error (ParseErr.badInt ['1', '>', ' ', 'x'])
    ∧ specMarkerSrcLine ((":1> x>").data) = some 1 := by
  decide

/-- C6, counterexample to the claim as stated: the input names `graph`
and `graph_` are two distinct function names, but the reserved-word
rename maps both to the identifier `graph_`, so the parsed graph has
one node, not two. -/
theorem c6_counterexample :
    (processTriples [⟨0, "graph", -1⟩, ⟨1, "graph_", -1⟩] initState).map
        (fun st => st.g.nodes.length) = Except.ok 1
    ∧ (([⟨0, "graph", -1⟩, ⟨1, "graph_", -1⟩] : List CallLine).map
        (fun t => t.name)).dedup.length = 2 := by
  decide

/-- C4: the formatter's color is the first palette entry and the shape
is box at nestLevel 0; for positive nestLevel the color is
palette[(nestLevel-1) mod 5] and the shape is shapes[nestLevel mod 5],
with the palette and shape tables exactly as in the source; the result
is a pure function of the node data, independent of traversal order. -/
theorem c4_depth_styling (node : String) (nest_level src_line : Int)
    (defined_somewhere for_latex multi_page : Bool) :
    _COLORS = ["#eecc80", "#ccee80", "#80ccee", "#eecc80", "#80eecc"]
    ∧ shapesList = ["box", "ellipse", "octagon", "hexagon", "diamond"]
    ∧ (nest_level = 0 →
        (choose_node_format node nest_level src_line defined_somewhere
            for_latex multi_page).2.1 = "#eecc80"
        ∧ (choose_node_format node nest_level src_line defined_somewhere
            for_latex multi_page).2.2 = "box")
    ∧ (0 < nest_level →
        (choose_node_format node nest_level src_line defined_somewhere
            for_latex multi_page).2.1 = _COLORS.getD ((nest_level - 1) % 5).toNat ""
        ∧ (choose_node_format node nest_level src_line defined_somewhere
            for_latex multi_page).2.2 = shapesList.getD (nest_level % 5).toNat "") := by
  refine ⟨rfl, rfl, ?_, ?_⟩
  · intro h
    subst h
    exact ⟨rfl, rfl⟩
  · intro h
    have hne : nest_level ≠ 0 := by omega
    exact ⟨by simp [choose_node_format, hne], by simp [choose_node_format, hne]⟩

theorem c4_depth_styling_witness :
    ((choose_node_format ("f") 0 (-1) false false false).2.1 = "#eecc80"
      ∧ (choose_node_format ("f") 0 (-1) false false false).2.2 = "box")
    ∧ ((choose_node_format ("f") 7 (-1) false false false).2.1
          = _COLORS.getD (((7 : Int) - 1) % 5).toNat ""
      ∧ (choose_node_format ("f") 7 (-1) false false false).2.2
          = shapesList.getD ((7 : Int) % 5).toNat "") :=
  ⟨(c4_depth_styling ("f") 0 (-1) false false false).2.2.1 rfl,
    (c4_depth_styling ("f") 7 (-1) false false false).2.2.2 (by decide)⟩

/-- C10: in multi-page mode the node name inside the descitem anchor
braces and inside the descref target braces is the raw identifier,
while the visible label portion is the underscore-escaped one, for
every value of the LaTeX flag. -/
theorem c10_multipage_raw_anchor (node : String) (nest_level src_line : Int)
    (defined_somewhere for_latex : Bool) :
    (src_line ≠ -1 →
      (choose_node_format node nest_level src_line defined_somewhere
          for_latex true).1
        = "\\\\" ++ "descitem\x7b" ++ node ++ "\x7d\\n"
            ++ (_escape_underscores node for_latex ++ "\\n" ++ toString src_line))
    ∧ (src_line = -1 → defined_somewhere = true →
      (choose_node_format node nest_level src_line defined_somewhere
          for_latex true).1
        = "\\\\" ++ "descref[" ++ _escape_underscores node for_latex
            ++ "]\x7b" ++ node ++ "\x7d") := by
  constructor
  · intro h
    simp [choose_node_format, h]
  · intro h hd
    subst h
    subst hd
    simp [choose_node_format]

theorem c10_multipage_raw_anchor_witness :
    (choose_node_format ("a_b") 2 7 false true true).1
      = "\\\\" ++ "descitem\x7b" ++ "a_b" ++ "\x7d\\n"
          ++ (_escape_underscores ("a_b") true ++ "\\n" ++ toString (7 : Int))
    ∧ (choose_node_format ("a_b") 2 (-1) true true true).1
      = "\\\\" ++ "descref[" ++ _escape_underscores ("a_b") true
          ++ "]\x7b" ++ "a_b" ++ "\x7d" :=
  ⟨(c10_multipage_raw_anchor ("a_b") 2 7 false true).1 (by decide),
    (c10_multipage_raw_anchor ("a_b") 2 (-1) true true).2 rfl rfl⟩

/-! Reserved-word renaming: supporting lemmas. -/

theorem strLower_append_underscore (w : String) :
    strLower (w ++ "_") = strLower w ++ "_" := by
  obtain ⟨d⟩ := w
  show String.mk ((d ++ ['_']).map lowerChar) = String.mk (d.map lowerChar ++ ['_'])
  rw [List.map_append]
  rfl

theorem append_underscore_not_reserved (s : String) : (s ++ "_") ∉ _DOT_RESERVED := by
  intro h
  have hd : (s ++ "_").data.getLast? = some '_' := by
    obtain ⟨d⟩ := s
    show (d ++ ['_']).getLast? = some '_'
    simp
  simp only [_DOT_RESERVED, List.mem_cons, List.not_mem_nil, or_false] at h
  rcases h with h | h | h | h | h | h <;> rw [h] at hd <;> exact absurd hd (by decide)

/-- C8: a function name whose lowercase form is one of the reserved
words graph, strict, digraph, subgraph, node, edge is recorded with a
trailing underscore appended, and the result is (case-insensitively)
distinct from every reserved word; any other name is used unchanged. -/
theorem c8_reserved_rename (w : String) :
    (strLower w ∈ _DOT_RESERVED →
      rename_if_reserved_by_dot w = w ++ "_"
      ∧ strLower (rename_if_reserved_by_dot w) ∉ _DOT_RESERVED)
    ∧ (strLower w ∉ _DOT_RESERVED → rename_if_reserved_by_dot w = w) := by
  constructor
  · intro h
    have he : rename_if_reserved_by_dot w = w ++ "_" := by
      simp [rename_if_reserved_by_dot, h]
    refine ⟨he, ?_⟩
    rw [he, strLower_append_underscore]
    exact append_underscore_not_reserved (strLower w)
  · intro h
    simp [rename_if_reserved_by_dot, h]

theorem c8_reserved_rename_witness :
    (rename_if_reserved_by_dot ("Graph") = ("Graph") ++ "_"
      ∧ strLower (rename_if_reserved_by_dot ("Graph")) ∉ _DOT_RESERVED)
    ∧ rename_if_reserved_by_dot ("foo") = ("foo") :=
  ⟨(c8_reserved_rename ("Graph")).1 (by decide),
    (c8_reserved_rename ("foo")).2 (by decide)⟩

/-! Cross-graph resolver: supporting lemma and claim. -/

theorem ndios_foldl (node : String) (gs : List Graph) (acc : Bool) :
    gs.foldl
        (fun defined_somewhere graph =>
          match findNodeAttrs graph node with
          | some a => if a.2 ≠ -1 then true else defined_somewhere
          | none => defined_somewhere)
        acc
      = (acc ||
          gs.any (fun g =>
            match findNodeAttrs g node with
            | some a => decide (a.2 ≠ -1)
            | none => false)) := by
  induction gs generalizing acc with
  | nil => simp
  | cons g gs ih =>
    rw [List.foldl_cons, ih, List.any_cons]
    cases hf : findNodeAttrs g node with
    | none => simp [hf]
    | some a =>
      by_cases hs : a.2 = -1
      · simp [hf, hs]
      · simp [hf, hs, Bool.or_comm, Bool.or_assoc]

/-- C7: the resolver returns true exactly when the queried node occurs
in one of the sibling graphs with a src_line attribute other than the
sentinel -1, and it returns false on an empty sibling list.  (It is a
pure function of the graphs, so it mutates nothing.) -/
theorem c7_defined_elsewhere (node : String) (gs : List Graph) :
    (node_defined_in_other_src node gs = true ↔
      ∃ g ∈ gs, ∃ nl sl, findNodeAttrs g node = some (nl, sl) ∧ sl ≠ -1)
    ∧ node_defined_in_other_src node [] = false := by
  refine ⟨?_, rfl⟩
  unfold node_defined_in_other_src
  rw [ndios_foldl]
  simp only [Bool.false_or, List.any_eq_true]
  constructor
  · rintro ⟨g, hg, hp⟩
    refine ⟨g, hg, ?_⟩
    cases hf : findNodeAttrs g node with
    | none => rw [hf] at hp; exact absurd hp (by simp)
    | some a =>
      rw [hf] at hp
      exact ⟨a.1, a.2, rfl, by simpa using hp⟩
  · rintro ⟨g, hg, nl, sl, hf, hs⟩
    refine ⟨g, hg, ?_⟩
    rw [hf]
    simpa using hs

/-! Inversion lemmas for one parser step. -/

theorem stackFind_cons_ne {k q : Int} {v : String} {s : List (Int × String)}
    (h : k ≠ q) : stackFind ((k, v) :: s) q = stackFind s q := by
  simp [stackFind, h]

theorem step_ok_stack {st : PState} {t : CallLine} {st' : PState}
    (h : step st t = Except.ok st') :
    st'.stack = (t.nest, rename_if_reserved_by_dot t.name) :: st.stack := by
  simp only [step] at h
  split at h
  · split at h
    · exact Except.noConfusion h
    · split at h <;> (cases h; rfl)
  · cases h
    rfl

theorem step_error_inv {st : PState} {t : CallLine} {e : ParseErr}
    (h : step st t = Except.error e) :
    t.nest ≠ 0
    ∧ stackFind st.stack (t.nest - 1) = none
    ∧ e = ParseErr.missingAncestor
        (ensureNode st.g (rename_if_reserved_by_dot t.name) t.nest t.src)
        (t.nest - 1) := by
  have hne : t.nest ≠ t.nest - 1 := by omega
  simp only [step] at h
  split at h
  case isTrue hn =>
    split at h
    case h_1 heq =>
      cases h
      rw [stackFind_cons_ne hne] at heq
      exact ⟨hn, heq, rfl⟩
    case h_2 p heq =>
      split at h <;> exact Except.noConfusion h
  case isFalse hn => exact Except.noConfusion h

theorem step_ok_of_find {st : PState} {t : CallLine} {p : String}
    (hn : t.nest ≠ 0) (hf : stackFind st.stack (t.nest - 1) = some p) :
    step st t = Except.ok
      (if (ensureNode st.g (rename_if_reserved_by_dot t.name) t.nest
            t.src).hasEdge p (rename_if_reserved_by_dot t.name) then
        ⟨ensureNode st.g (rename_if_reserved_by_dot t.name) t.nest t.src,
          (t.nest, rename_if_reserved_by_dot t.name) :: st.stack⟩
      else
        ⟨(ensureNode st.g (rename_if_reserved_by_dot t.name) t.nest
            t.src).addEdge p (rename_if_reserved_by_dot t.name),
          (t.nest, rename_if_reserved_by_dot t.name) :: st.stack⟩) := by
  have hne : t.nest ≠ t.nest - 1 := by omega
  simp only [step, stackFind_cons_ne hne, hf, if_pos hn]
  split <;> rfl

/-! Graph-operation lemmas. -/

theorem hasEdge_iff {g : Graph} {a b : String} :
    g.hasEdge a b = true ↔ (a, b) ∈ g.edges := by
  simp [Graph.hasEdge, List.contains, List.elem_iff]

theorem ensureNode_edges (g : Graph) (cur : String) (nl sl : Int) :
    (ensureNode g cur nl sl).edges = g.edges := by
  unfold ensureNode
  split <;> rfl

theorem ensureNode_of_hasNode {g : Graph} {cur : String} (nl sl : Int)
    (h : g.hasNode cur = true) : ensureNode g cur nl sl = g := by
  unfold ensureNode
  rw [if_pos h]

theorem step_edges {st : PState} {t : CallLine} {st' : PState}
    (h : step st t = Except.ok st') :
    st'.g.edges = st.g.edges
    ∨ ∃ pc, st'.g.edges = st.g.edges ++ [pc] ∧ pc ∉ st.g.edges := by
  simp only [step] at h
  split at h
  · split at h
    · exact Except.noConfusion h
    case h_2 p heq =>
      split at h
      case isTrue hed =>
        cases h
        exact Or.inl (ensureNode_edges _ _ _ _)
      case isFalse hed =>
        cases h
        refine Or.inr ⟨(p, rename_if_reserved_by_dot t.name), ?_, ?_⟩
        · simp [Graph.addEdge, ensureNode_edges]
        · intro hm
          exact hed (hasEdge_iff.mpr (by rw [ensureNode_edges]; exact hm))
  · cases h
    exact Or.inl (ensureNode_edges _ _ _ _)

/-! The parser folded over a list decomposes along appends. -/

theorem processTriples_append (l₁ l₂ : List CallLine) (st : PState) :
    processTriples (l₁ ++ l₂) st =
      match processTriples l₁ st with
      | Except.ok st' => processTriples l₂ st'
      | Except.error e => Except.error e := by
  induction l₁ generalizing st with
  | nil => rfl
  | cons t ts ih =>
    show processTriples (t :: (ts ++ l₂)) st = _
    simp only [processTriples]
    cases hs : step st t with
    | error e => rfl
    | ok st₁ => exact ih st₁

/-- After a successful parse the stack binds each depth to the most
recently processed line of that depth (the dict is never cleared). -/
theorem stack_after {ts : List CallLine} {st st' : PState}
    (h : processTriples ts st = Except.ok st') (d : Int) :
    stackFind st'.stack d =
      match ts.reverse.find? (fun u => u.nest == d) with
      | some u => some (rename_if_reserved_by_dot u.name)
      | none => stackFind st.stack d := by
  induction ts generalizing st with
  | nil =>
    cases h
    simp
  | cons t ts ih =>
    simp only [processTriples] at h
    cases hs : step st t with
    | error e => rw [hs] at h; exact Except.noConfusion h
    | ok st₁ =>
      rw [hs] at h
      have hst := step_ok_stack hs
      have ihh := ih h
      rw [List.reverse_cons, List.find?_append]
      cases hfind : ts.reverse.find? (fun u => u.nest == d) with
      | some u =>
        rw [hfind] at ihh
        simpa using ihh
      | none =>
        rw [hfind] at ihh
        simp only at ihh
        rw [ihh, hst]
        by_cases hd : t.nest = d
        · have hb : (t.nest == d) = true := by simpa using hd
          simp [List.find?, hb, stackFind, hd]
        · have hb : (t.nest == d) = false := by simpa using hd
          simp [List.find?, hb, stackFind, hd]

/-- C9: the depth-indexed stack is never cleared during one parse; a
line at positive depth takes as caller the name most recently recorded
at the parent depth anywhere earlier in the file, so a jump to a deeper
level whose parent depth was populated by an earlier, unrelated subtree
succeeds and draws the edge from that stale entry. -/
theorem c9_stale_stack (pre : List CallLine) (t : CallLine) (rest : List CallLine)
    (st₁ : PState) (u : CallLine)
    (hpre : processTriples pre initState = Except.ok st₁)
    (hn : 0 < t.nest)
    (hu : pre.reverse.find? (fun v => v.nest == t.nest - 1) = some u) :
    stackFind st₁.stack (t.nest - 1) = some (rename_if_reserved_by_dot u.name)
    ∧ ∃ st₂, step st₁ t = Except.ok st₂
        ∧ (rename_if_reserved_by_dot u.name, rename_if_reserved_by_dot t.name)
            ∈ st₂.g.edges
        ∧ processTriples (pre ++ t :: rest) initState = processTriples rest st₂ := by
  have hsf : stackFind st₁.stack (t.nest - 1)
      = some (rename_if_reserved_by_dot u.name) := by
    have hsa := stack_after hpre (t.nest - 1)
    rw [hu] at hsa
    simpa using hsa
  refine ⟨hsf, ?_⟩
  have hn0 : t.nest ≠ 0 := by omega
  have hstep := step_ok_of_find hn0 hsf
  refine ⟨_, hstep, ?_, ?_⟩
  · split
    case isTrue hed =>
      exact (hasEdge_iff.mp hed)
    case isFalse hed =>
      simp [Graph.addEdge]
  · rw [processTriples_append, hpre]
    simp only [processTriples, hstep]

theorem c9_stale_stack_witness :
    stackFind ([(0, "d"), (2, "c"), (1, "b"), (0, "a")]) ((3 : Int) - 1)
        = some (rename_if_reserved_by_dot ("c"))
    ∧ ∃ st₂,
        step ⟨⟨[("a", 0, -1), ("b", 1, -1), ("c", 2, -1), ("d", 0, -1)],
            [("a", "b"), ("b", "c")]⟩,
          [(0, "d"), (2, "c"), (1, "b"), (0, "a")]⟩ ⟨3, "e", -1⟩ = Except.ok st₂
        ∧ (rename_if_reserved_by_dot ("c"), rename_if_reserved_by_dot ("e"))
            ∈ st₂.g.edges
        ∧ processTriples
            ([⟨0, "a", -1⟩, ⟨1, "b", -1⟩, ⟨2, "c", -1⟩, ⟨0, "d", -1⟩]
              ++ ⟨3, "e", -1⟩ :: []) initState
          = processTriples [] st₂ :=
  c9_stale_stack [⟨0, "a", -1⟩, ⟨1, "b", -1⟩, ⟨2, "c", -1⟩, ⟨0, "d", -1⟩]
    ⟨3, "e", -1⟩ []
    ⟨⟨[("a", 0, -1), ("b", 1, -1), ("c", 2, -1), ("d", 0, -1)],
        [("a", "b"), ("b", "c")]⟩,
      [(0, "d"), (2, "c"), (1, "b"), (0, "a")]⟩
    ⟨2, "c", -1⟩ (by decide) (by decide) (by decide)

/-! Edge dedup invariant. -/

theorem processTriples_edges_nodup {ts : List CallLine} {st st' : PState}
    (h : processTriples ts st = Except.ok st') (hd : st.g.edges.Nodup) :
    st'.g.edges.Nodup := by
  induction ts generalizing st with
  | nil => cases h; exact hd
  | cons t ts ih =>
    simp only [processTriples] at h
    cases hs : step st t with
    | error e => rw [hs] at h; exact Except.noConfusion h
    | ok st₁ =>
      rw [hs] at h
      refine ih h ?_
      rcases step_edges hs with he | ⟨pc, he, hm⟩
      · rw [he]; exact hd
      · rw [he]
        exact List.Nodup.append hd (List.nodup_singleton pc)
          (List.disjoint_singleton.mpr hm)

/-- C3: a successfully parsed graph never holds two edges with the
same ordered (caller, callee) pair; and a step that encounters a call
whose edge is already in the graph succeeds silently, leaving the
graph unchanged (only the stack is updated). -/
theorem c3_no_duplicate_edges (ts : List CallLine) (st' : PState)
    (h : processTriples ts initState = Except.ok st') :
    st'.g.edges.Nodup
    ∧ ∀ (st : PState) (t : CallLine) (p : String),
        t.nest ≠ 0 →
        stackFind st.stack (t.nest - 1) = some p →
        Graph.hasNode st.g (rename_if_reserved_by_dot t.name) = true →
        (p, rename_if_reserved_by_dot t.name) ∈ st.g.edges →
        step st t = Except.ok
          ⟨st.g, (t.nest, rename_if_reserved_by_dot t.name) :: st.stack⟩ := by
  constructor
  · exact processTriples_edges_nodup h List.nodup_nil
  · intro st t p hn hf hnode hmem
    have hstep := step_ok_of_find hn hf
    rw [ensureNode_of_hasNode t.nest t.src hnode] at hstep
    rw [hstep, if_pos (hasEdge_iff.mpr hmem)]

theorem c3_no_duplicate_edges_witness :
    (Graph.edges ⟨[("a", 0, -1), ("b", 1, -1)], [("a", "b")]⟩).Nodup
    ∧ step ⟨⟨[("a", 0, -1), ("b", 1, -1)], [("a", "b")]⟩, [(1, "b"), (0, "a")]⟩
        ⟨1, "b", -1⟩ =
      Except.ok ⟨⟨[("a", 0, -1), ("b", 1, -1)], [("a", "b")]⟩,
        [(1, rename_if_reserved_by_dot ("b")), (1, "b"), (0, "a")]⟩ :=
  ⟨(c3_no_duplicate_edges [⟨0, "a", -1⟩, ⟨1, "b", -1⟩, ⟨1, "b", -1⟩]
      ⟨⟨[("a", 0, -1), ("b", 1, -1)], [("a", "b")]⟩,
        [(1, "b"), (1, "b"), (0, "a")]⟩ (by decide)).1,
    (c3_no_duplicate_edges [] initState (by decide)).2
      ⟨⟨[("a", 0, -1), ("b", 1, -1)], [("a", "b")]⟩, [(1, "b"), (0, "a")]⟩
      ⟨1, "b", -1⟩ ("a") (by decide) (by decide) (by decide) (by decide)⟩

/-! Node-set invariants. -/

def nodeNames (g : Graph) : List String := g.nodes.map Prod.fst

theorem hasNode_iff {g : Graph} {x : String} :
    g.hasNode x = true ↔ x ∈ nodeNames g := by
  simp [Graph.hasNode, nodeNames, List.any_eq_true, List.mem_map, beq_iff_eq]

theorem hasNode_ensureNode_self (g : Graph) (cur : String) (nl sl : Int) :
    (ensureNode g cur nl sl).hasNode cur = true := by
  unfold ensureNode
  split
  case isTrue h => exact h
  case isFalse h => simp [Graph.hasNode, Graph.addNode]

theorem step_nodes {st : PState} {t : CallLine} {st' : PState}
    (h : step st t = Except.ok st') :
    st'.g.nodes = (ensureNode st.g (rename_if_reserved_by_dot t.name)
      t.nest t.src).nodes := by
  simp only [step] at h
  split at h
  · split at h
    · exact Except.noConfusion h
    · split at h <;> (cases h; rfl)
  · cases h
    rfl

theorem step_names {st : PState} {t : CallLine} {st' : PState}
    (h : step st t = Except.ok st') :
    (nodeNames st'.g).toFinset
        = insert (rename_if_reserved_by_dot t.name) (nodeNames st.g).toFinset
    ∧ ((nodeNames st.g).Nodup → (nodeNames st'.g).Nodup) := by
  have hnodes := step_nodes h
  by_cases hh : st.g.hasNode (rename_if_reserved_by_dot t.name) = true
  · have heq : nodeNames st'.g = nodeNames st.g := by
      rw [nodeNames, hnodes, ensureNode_of_hasNode t.nest t.src hh]
      rfl
    constructor
    · rw [heq]
      have hx : rename_if_reserved_by_dot t.name ∈ (nodeNames st.g).toFinset :=
        List.mem_toFinset.mpr (hasNode_iff.mp hh)
      rw [Finset.insert_eq_self.mpr hx]
    · intro hd
      rw [heq]
      exact hd
  · have heq : nodeNames st'.g
        = nodeNames st.g ++ [rename_if_reserved_by_dot t.name] := by
      rw [nodeNames, hnodes]
      unfold ensureNode
      rw [if_neg hh]
      simp [Graph.addNode, nodeNames]
    constructor
    · rw [heq]
      ext x
      simp [or_comm]
    · intro hd
      rw [heq]
      have hx : rename_if_reserved_by_dot t.name ∉ nodeNames st.g :=
        fun hx => hh (hasNode_iff.mpr hx)
      exact List.Nodup.append hd (List.nodup_singleton _)
        (List.disjoint_singleton.mpr hx)

theorem processTriples_names {ts : List CallLine} {st st' : PState}
    (h : processTriples ts st = Except.ok st') :
    (nodeNames st'.g).toFinset
        = (nodeNames st.g).toFinset
            ∪ (ts.map (fun t => rename_if_reserved_by_dot t.name)).toFinset
    ∧ ((nodeNames st.g).Nodup → (nodeNames st'.g).Nodup) := by
  induction ts generalizing st with
  | nil =>
    cases h
    simp
  | cons t ts ih =>
    simp only [processTriples] at h
    cases hs : step st t with
    | error e => rw [hs] at h; exact Except.noConfusion h
    | ok st₁ =>
      rw [hs] at h
      obtain ⟨h1, h2⟩ := step_names hs
      obtain ⟨ih1, ih2⟩ := ih h
      constructor
      · rw [ih1, h1, List.map_cons, List.toFinset_cons,
          Finset.insert_union, Finset.union_insert]
      · intro hd
        exact ih2 (h2 hd)

/-- C6, amended: the number of nodes of a successfully parsed graph is
the number of distinct node identifiers obtained by applying the
reserved-word rename to the input function names (distinct input names
whose renamed identifiers coincide, such as graph and graph_, collapse
into one node). -/
theorem c6_distinct_nodes_amended (ts : List CallLine) (st' : PState)
    (h : processTriples ts initState = Except.ok st') :
    st'.g.nodes.length
      = ((ts.map (fun t => rename_if_reserved_by_dot t.name)).dedup).length := by
  obtain ⟨h1, h2⟩ := processTriples_names h
  have hnodup : (nodeNames st'.g).Nodup := h2 (by simp [initState, nodeNames])
  have hlen : st'.g.nodes.length = (nodeNames st'.g).length := by
    simp [nodeNames]
  have he : (nodeNames initState.g).toFinset = ∅ := rfl
  rw [hlen, ← List.toFinset_card_of_nodup hnodup, h1, he, Finset.empty_union,
    List.card_toFinset]

theorem c6_distinct_nodes_amended_witness :
    (PState.g ⟨⟨[("a", 0, -1), ("b", 1, -1)], [("a", "b")]⟩,
        [(1, "b"), (1, "b"), (0, "a")]⟩).nodes.length
      = (([⟨0, "a", -1⟩, ⟨1, "b", -1⟩, ⟨1, "b", -1⟩] : List CallLine).map
          (fun t => rename_if_reserved_by_dot t.name)).dedup.length :=
  c6_distinct_nodes_amended [⟨0, "a", -1⟩, ⟨1, "b", -1⟩, ⟨1, "b", -1⟩]
    ⟨⟨[("a", 0, -1), ("b", 1, -1)], [("a", "b")]⟩,
      [(1, "b"), (1, "b"), (0, "a")]⟩ (by decide)

/-! Missing-ancestor failure. -/

theorem c2_aux (ts : List CallLine) : ∀ st : PState,
    (∃ pre t rest, ts = pre ++ t :: rest ∧ t.nest ≠ 0
      ∧ stackFind st.stack (t.nest - 1) = none
      ∧ ∀ u ∈ pre, u.nest ≠ t.nest - 1) →
    ∃ pre t rest g, ts = pre ++ t :: rest ∧ t.nest ≠ 0
      ∧ processTriples ts st
          = Except.error (ParseErr.missingAncestor g (t.nest - 1))
      ∧ Graph.hasNode g (rename_if_reserved_by_dot t.name) = true := by
  induction ts with
  | nil =>
    rintro st ⟨pre, t, rest, heq, _⟩
    exact absurd heq (by simp)
  | cons a ts ih =>
    rintro st ⟨pre, t, rest, heq, hn, hsf, hpre⟩
    cases pre with
    | nil =>
      simp only [List.nil_append] at heq
      injection heq with h1 h2
      subst h1
      have hne : a.nest ≠ a.nest - 1 := by omega
      have herr : step st a = Except.error (ParseErr.missingAncestor
          (ensureNode st.g (rename_if_reserved_by_dot a.name) a.nest a.src)
          (a.nest - 1)) := by
        simp only [step]
        rw [if_pos hn, stackFind_cons_ne hne, hsf]
      refine ⟨[], a, ts,
        ensureNode st.g (rename_if_reserved_by_dot a.name) a.nest a.src,
        rfl, hn, ?_, hasNode_ensureNode_self _ _ _ _⟩
      simp only [processTriples, herr]
    | cons b pre₂ =>
      simp only [List.cons_append] at heq
      injection heq with h1 h2
      subst h1
      cases hs : step st a with
      | error e =>
        obtain ⟨hn0, hsf0, he⟩ := step_error_inv hs
        refine ⟨[], a, ts,
          ensureNode st.g (rename_if_reserved_by_dot a.name) a.nest a.src,
          rfl, hn0, ?_, hasNode_ensureNode_self _ _ _ _⟩
        rw [he] at hs
        simp only [processTriples, hs]
      | ok st₁ =>
        have hst := step_ok_stack hs
        have hane : a.nest ≠ t.nest - 1 := hpre a (by simp)
        have hsf₁ : stackFind st₁.stack (t.nest - 1) = none := by
          rw [hst, stackFind_cons_ne hane, hsf]
        obtain ⟨pre', t', rest', g, heq', hn', herr', hnode'⟩ :=
          ih st₁ ⟨pre₂, t, rest, h2, hn, hsf₁,
            fun u hu => hpre u (List.mem_cons_of_mem _ hu)⟩
        refine ⟨a :: pre', t', rest', g, ?_, hn', ?_, hnode'⟩
        · rw [List.cons_append, ← heq']
        · simp only [processTriples, hs]
          exact herr'

/-- C2, amended: an input sequence of call lines (with the data
model's non-negative depths) holding a line at depth d greater than 0
with no earlier line at depth d-1 makes the parse fail with the
missing-ancestor KeyError; the failure occurs at such an offending
line, and the node of that line has already been added to the graph
when the error is raised (the partially built graph is then discarded
with the exception). -/
theorem c2_missing_ancestor_amended (ts : List CallLine)
    (hnn : ∀ u ∈ ts, 0 ≤ u.nest)
    (hoff : ∃ pre t rest, ts = pre ++ t :: rest ∧ 0 < t.nest
      ∧ ∀ u ∈ pre, u.nest ≠ t.nest - 1) :
    ∃ pre t rest g, ts = pre ++ t :: rest ∧ 0 < t.nest
      ∧ processTriples ts initState
          = Except.error (ParseErr.missingAncestor g (t.nest - 1))
      ∧ Graph.hasNode g (rename_if_reserved_by_dot t.name) = true := by
  obtain ⟨pre, t, rest, heq, hpos, hpre⟩ := hoff
  obtain ⟨pre', t', rest', g, heq', hne', herr', hnode'⟩ :=
    c2_aux ts initState ⟨pre, t, rest, heq, by omega, rfl, hpre⟩
  refine ⟨pre', t', rest', g, heq', ?_, herr', hnode'⟩
  have ht' : t' ∈ ts := by
    rw [heq']
    exact List.mem_append_right _ (List.mem_cons_self _ _)
  have := hnn t' ht'
  omega

theorem c2_missing_ancestor_amended_witness :
    ∃ pre t rest g,
      ([⟨0, "main", 10⟩, ⟨2, "baz", -1⟩] : List CallLine) = pre ++ t :: rest
      ∧ 0 < t.nest
      ∧ processTriples [⟨0, "main", 10⟩, ⟨2, "baz", -1⟩] initState
          = Except.error (ParseErr.missingAncestor g (t.nest - 1))
      ∧ Graph.hasNode g (rename_if_reserved_by_dot t.name) = true :=
  c2_missing_ancestor_amended [⟨0, "main", 10⟩, ⟨2, "baz", -1⟩] (by decide)
    ⟨[⟨0, "main", 10⟩], ⟨2, "baz", -1⟩, [], rfl, by decide, by decide⟩

/-! Source-line extraction: supporting lemmas. -/

theorem ws_not_digit {c : Char} (h : isPyWs c = true) : charIsDigit c = false := by
  simp only [isPyWs, Bool.or_eq_true, beq_iff_eq] at h
  rcases h with ((((rfl | rfl) | rfl) | rfl) | rfl) | rfl <;> decide

theorem charIsDigit_not_ws {c : Char} (h : charIsDigit c = true) : isPyWs c = false := by
  cases hw : isPyWs c
  · rfl
  · rw [ws_not_digit hw] at h
    exact Bool.noConfusion h

theorem dropWhile_eq_self_of_all {p : Char → Bool} {l : List Char}
    (h : ∀ x ∈ l, p x = false) : l.dropWhile p = l := by
  cases l with
  | nil => rfl
  | cons a l => simp [List.dropWhile_cons, h a (List.mem_cons_self a l)]

theorem dropWhile_append_all {p : Char → Bool} {xs ys : List Char}
    (h : ∀ x ∈ xs, p x = true) : (xs ++ ys).dropWhile p = ys.dropWhile p := by
  induction xs with
  | nil => rfl
  | cons a xs ih =>
    rw [List.cons_append, List.dropWhile_cons, if_pos (h a (by simp))]
    exact ih (fun x hx => h x (by simp [hx]))

theorem stripWs_digits {ds : List Char} (hall : allDigits ds = true) :
    stripWsLC ds = ds := by
  have hnw : ∀ x ∈ ds, isPyWs x = false := fun x hx =>
    charIsDigit_not_ws (List.all_eq_true.mp hall x hx)
  unfold stripWsLC
  rw [dropWhile_eq_self_of_all hnw,
    dropWhile_eq_self_of_all (fun x hx => hnw x (List.mem_reverse.mp hx)),
    List.reverse_reverse]

theorem pyInt_digits {ds : List Char} (hne : ds ≠ []) (hall : allDigits ds = true) :
    pyInt? ds = some (digitsVal ds) := by
  obtain ⟨d, ds', rfl⟩ := List.exists_cons_of_ne_nil hne
  have hd : charIsDigit d = true := List.all_eq_true.mp hall d (by simp)
  have hd1 : d ≠ '-' := by
    intro he
    rw [he] at hd
    exact absurd hd (by decide)
  have hd2 : d ≠ '+' := by
    intro he
    rw [he] at hd
    exact absurd hd (by decide)
  simp only [pyInt?, stripWs_digits hall]
  rw [if_neg hd1, if_neg hd2, if_pos hall]

theorem takeToLastGt_append {ds post : List Char} (hpost : '>' ∉ post) :
    takeToLastGt (ds ++ '>' :: post) = ds := by
  unfold takeToLastGt
  rw [List.reverse_append, List.reverse_cons, List.append_assoc,
    dropWhile_append_all
      (fun x hx => by
        simp only [bne_iff_ne, ne_eq]
        intro he
        exact hpost (by rw [← he]; exact List.mem_reverse.mp hx)),
    List.singleton_append, List.dropWhile_cons, if_neg (by decide)]
  simp

theorem findColonGt_marker {pre ds post : List Char}
    (hpre : ':' ∉ pre) :
    findColonGtContent (pre ++ ':' :: (ds ++ '>' :: post))
      = some (takeToLastGt (ds ++ '>' :: post)) := by
  induction pre with
  | nil =>
    simp [findColonGtContent]
  | cons c pre ih =>
    have hc : c ≠ ':' := fun he => hpre (by simp [he])
    simp only [List.cons_append, findColonGtContent]
    rw [if_neg (fun hco => hc hco.1)]
    exact ih (fun h => hpre (by simp [h]))

theorem findColonGt_none {l : List Char}
    (h : ¬ ∃ p q, l = p ++ ':' :: q ∧ '>' ∈ q) :
    findColonGtContent l = none := by
  induction l with
  | nil => rfl
  | cons c rest ih =>
    simp only [findColonGtContent]
    rw [if_neg, ih]
    · intro hdec
      obtain ⟨p, q, heq, hq⟩ := hdec
      exact h ⟨c :: p, q, by rw [List.cons_append, heq], hq⟩
    · intro hco
      obtain ⟨h1, h2⟩ := hco
      exact h ⟨[], rest, by simp [h1], h2⟩

/-- C5, amended: the source extracts the text between the first colon
that is followed by some later greater-than and the last greater-than
of the whole line, then parses it as an integer.  Hence a marker of
colon, digits, greater-than is extracted as its digits exactly when the
marker's colon is the first such colon and its greater-than is the last
one on the line; and the sentinel -1 is returned exactly when no colon
followed by a later greater-than occurs (not merely when no digit
marker is present). -/
theorem c5_src_line_amended (pre ds post : List Char)
    (hpre : ':' ∉ pre) (hne : ds ≠ []) (hall : allDigits ds = true)
    (hpost : '>' ∉ post) :
    get_src_line (pre ++ ':' :: (ds ++ '>' :: post)) = Except.ok (digitsVal ds)
    ∧ ∀ l : List Char, (¬ ∃ p q, l = p ++ ':' :: q ∧ '>' ∈ q) →
        get_src_line l = Except.ok (-1) := by
  constructor
  · unfold get_src_line
    rw [findColonGt_marker hpre, takeToLastGt_append hpost]
    dsimp only
    rw [pyInt_digits hne hall]
  · intro l hl
    unfold get_src_line
    rw [findColonGt_none hl]

theorem c5_src_line_amended_witness :
    get_src_line (['a'] ++ ':' :: (['1', '2'] ++ '>' :: [')']))
      = Except.ok (digitsVal ['1', '2'])
    ∧ get_src_line (['x', 'y']) = Except.ok (-1) :=
  ⟨(c5_src_line_amended ['a'] ['1', '2'] [')']
      (by decide) (by decide) (by decide) (by decide)).1,
    (c5_src_line_amended ['a'] ['1', '2'] [')']
      (by decide) (by decide) (by decide) (by decide)).2 ['x', 'y']
      (by
        rintro ⟨p, q, heq, hq⟩
        have hm : ':' ∈ (['x', 'y'] : List Char) := by
          rw [heq]
          exact List.mem_append_right p (List.mem_cons_self ':' q)
        exact absurd hm (by decide))⟩
